import Mathlib

/-!
Verification of the scope-expression engine (`src/scopes.ts`) and the
`scopeInfo` boundary of the data-modeling layer (`src/model.ts`).

The TypeScript source is shallowly embedded:
* JS arrays used as stacks are Lean lists with the head as the stack top
  (`push` = cons, `pop` = head/tail); the JS spread `...stack`, which
  iterates bottom-to-top, therefore corresponds to `stack.reverse`.
* `ScopeInfo` (a JS object used as a string-keyed map) is an association
  list; `info[f]` being `undefined` corresponds to `List.lookup` returning
  `none`.
* The `TypeError` thrown by `info[f].includes(scope)` when `info[f]` is
  `undefined` is modeled by evaluation returning `Option.none`;
  `ParseError` thrown during `parse` is modeled by `Except.error ()`.
  The two error channels are distinct by type, mirroring the fact that
  `ParseError` is only ever constructed inside `parse`.
* `stack.pop()` on an empty JS array returns `undefined` without raising;
  accordingly `prepareExpr` returns `Option Expr`, with `none` for the
  `undefined` result on an empty operand stack.
-/

namespace Apioid

/-- `ScopeInfo`: mapping from field name to its list of scope tags
(`interface ScopeInfo { [field: string]: string[] }`), as an association
list; absent keys are `undefined`, i.e. `List.lookup _ _ = none`. -/
abbrev ScopeInfo := List (String × List String)

/-- `tokenize` splits on the single characters `( ) | & !`
(`expr.split(/([()|&!])/)`), each becoming its own segment. -/
def isDelim (c : Char) : Bool :=
  c = '(' || c = ')' || c = '|' || c = '&' || c = '!'

/-- The segments of `expr.split(/([()|&!])/)`: text between delimiters,
with each delimiter kept as its own one-character segment.  `acc` is the
current non-delimiter segment, reversed. -/
def splitSegs (acc : List Char) : List Char → List (List Char)
  | [] => [acc.reverse]
  | c :: cs =>
    if isDelim c then acc.reverse :: [c] :: splitSegs [] cs
    else splitSegs (c :: acc) cs

/-- JS `String.prototype.trim` on the whitespace that can occur in scope
expressions, at the character-list level. -/
def trimChars (cs : List Char) : List Char :=
  ((cs.dropWhile Char.isWhitespace).reverse.dropWhile Char.isWhitespace).reverse

/-- `tokenize(expr)`: split on `( ) | & !`, trim every segment, drop the
segments that are empty after trimming (`.map(x => x.trim()).filter(x => x)`). -/
def tokenize (expr : String) : List String :=
  ((splitSegs [] expr.data).map (fun cs => String.mk (trimChars cs))).filter
    (fun t => t ≠ "")

/-- `opPrecedence`: `|` = 1, `&` = 2, `!` = 3.  The version in the source is
only ever applied to one of these three operator tokens. -/
def opPrecedence (op : String) : Nat :=
  if op = "|" then 1 else if op = "&" then 2 else 3

/-- The `while` loop of the operator case of `applyPrecedence`: pop
operators whose precedence is not strictly lower than `prec` into the
output, stopping at `(` or at an operator of strictly lower precedence.
Stack top is the list head; the output sequence grows at its end. -/
def popHigher (prec : Nat) : List String → List String → List String × List String
  | [], out => ([], out)
  | t :: rest, out =>
    if t = "(" then (t :: rest, out)
    else if opPrecedence t < prec then (t :: rest, out)
    else popHigher prec rest (out ++ [t])

/-- The `while` loop of the `)` case: pop operators into the output until
the stack is empty or its top is `(`. -/
def popUntilParen : List String → List String → List String × List String
  | [], out => ([], out)
  | t :: rest, out =>
    if t = "(" then (t :: rest, out) else popUntilParen rest (out ++ [t])

/-- One iteration of the token loop of `applyPrecedence` over the state
`(opStack, outputStack)`.  After the `)` loop, `opStack.pop()` discards the
`(` when present and is a no-op on an empty stack (`List.tail`). -/
def precStep (st : List String × List String) (tok : String) : List String × List String :=
  if tok = "|" || tok = "&" || tok = "!" then
    let (ops, out) := popHigher (opPrecedence tok) st.1 st.2
    (tok :: ops, out)
  else if tok = "(" then ("(" :: st.1, st.2)
  else if tok = ")" then
    let (ops, out) := popUntilParen st.1 st.2
    (ops.tail, out)
  else (st.1, st.2 ++ [tok])

/-- The token loop of `applyPrecedence`, from empty stacks. -/
def precRun (tokens : List String) : List String × List String :=
  tokens.foldl precStep ([], [])

/-- `applyPrecedence`: after the loop, throw `ParseError` if a `(` remains
anywhere on the operator stack (`opStack.includes('(')`); otherwise append
the remaining operators to the output in bottom-to-top array order
(`outputStack.push(...opStack)`), which for a head-is-top list is
`ops.reverse`. -/
def applyPrecedence (tokens : List String) : Except Unit (List String) :=
  let (ops, out) := precRun tokens
  if "(" ∈ ops then .error () else .ok (out ++ ops.reverse)

/-- Compiled scope expressions: the closure tree built by `prepareExpr`
(`scopeWildcard`, `scopeLiteral`, `scopeNegate`, `scopeJoin`,
`scopeIntersect`), as a tagged tree. -/
inductive Expr where
  | wildcard : Expr
  | literal (scope : String) : Expr
  | negate (sub : Expr) : Expr
  | join (left right : Expr) : Expr
  | intersect (left right : Expr) : Expr
deriving Repr, DecidableEq

/-- One iteration of the loop of `prepareExpr`: `|`, `&` pop two operands
(`left` popped first, i.e. the stack top) and throw `ParseError` below two
elements; `!` pops one and throws on an empty stack; `*` pushes a wildcard
node; any other token pushes a literal node. -/
def prepStep (stack : List Expr) (s : String) : Except Unit (List Expr) :=
  if s = "|" then
    match stack with
    | l :: r :: rest => .ok (.join l r :: rest)
    | _ => .error ()
  else if s = "&" then
    match stack with
    | l :: r :: rest => .ok (.intersect l r :: rest)
    | _ => .error ()
  else if s = "!" then
    match stack with
    | e :: rest => .ok (.negate e :: rest)
    | _ => .error ()
  else if s = "*" then .ok (.wildcard :: stack)
  else .ok (.literal s :: stack)

/-- The loop of `prepareExpr` over the postfix steps. -/
def prepGo (stack : List Expr) : List String → Except Unit (List Expr)
  | [] => .ok stack
  | s :: rest => (prepStep stack s).bind (fun st => prepGo st rest)

/-- `prepareExpr(steps)`: run the loop, then return `stack.pop()` — the
top of the operand stack, or `undefined` (`none`) when the stack is empty;
no residue check is performed. -/
def prepareExpr (steps : List String) : Except Unit (Option Expr) :=
  (prepGo [] steps).map List.head?

/-- `parse(expr) = prepareExpr(applyPrecedence(tokenize(expr)))`. -/
def parse (expr : String) : Except Unit (Option Expr) :=
  (applyPrecedence (tokenize expr)).bind prepareExpr

/-- The body of `scopeLiteral(scope)`:
`fields.filter(f => info[f].includes(scope))`.  The predicate dereferences
`info[f]`, so the first field that is not a key of `info` raises a
`TypeError` (`none`); otherwise a field is kept iff its scope list
contains `scope`. -/
def literalFilter (scope : String) (info : ScopeInfo) : List String → Option (List String)
  | [] => some []
  | f :: fs =>
    match List.lookup f info with
    | none => none
    | some scopes =>
      match literalFilter scope info fs with
      | none => none
      | some rest => some (if scopes.contains scope then f :: rest else rest)

/-- Deduplication keeping the first occurrence of each element, carrying
the set of elements already seen. -/
def dedupGo (seen : List String) : List String → List String
  | [] => []
  | x :: xs => if x ∈ seen then dedupGo seen xs else x :: dedupGo (x :: seen) xs

/-- `Array.from(new Set(xs))`: deduplication keeping the first occurrence
of each element, in order of first appearance (JS `Set` insertion order). -/
def dedupFirst (l : List String) : List String := dedupGo [] l

/-- The evaluator.  Each compiled node is
`(info, fields) => string[]`, here `Option` to carry the `TypeError` of a
missing `ScopeInfo` key:
* `scopeWildcard` returns `fields`;
* `scopeLiteral` filters `fields` by scope membership (see `literalFilter`);
* `scopeNegate` evaluates its child on the same `fields` and returns
  `fields.filter(f => !excludedFields.includes(f))`;
* `scopeJoin` concatenates the results of both children and deduplicates via a
  JS `Set` (`dedupFirst`);
* `scopeIntersect` keeps the fields of the left result that the right result
  includes (the source computes the right side first; both sides must
  succeed either way). -/
def evalExpr : Expr → ScopeInfo → List String → Option (List String)
  | .wildcard, _, fields => some fields
  | .literal scope, info, fields => literalFilter scope info fields
  | .negate sub, info, fields =>
    match evalExpr sub info fields with
    | none => none
    | some excluded => some (fields.filter (fun f => !excluded.contains f))
  | .join l r, info, fields =>
    match evalExpr l info fields, evalExpr r info fields with
    | some a, some b => some (dedupFirst (a ++ b))
    | _, _ => none
  | .intersect l r, info, fields =>
    match evalExpr l info fields, evalExpr r info fields with
    | some a, some b => some (a.filter (fun f => b.contains f))
    | _, _ => none

/-- `parse(E)` then evaluate: `none` when `parse` throws or returns
`undefined`, otherwise the evaluation of the compiled expression. -/
def parseEval (E : String) (info : ScopeInfo) (fields : List String) :
    Option (List String) :=
  match parse E with
  | .ok (some e) => evalExpr e info fields
  | _ => none

/-- `"!(" + E + ")"`: the negation of `E` wrapped in parentheses. -/
def negWrap (E : String) : String := "!(" ++ E ++ ")"

/-- The complement law as the spec states it, for an expression string
`E`: whenever `E` and its wrapped negation both parse and evaluate, their
results jointly cover every member of `fields` and share no member. -/
def complementLaw (E : String) (info : ScopeInfo) (fields : List String) : Prop :=
  ∀ r1 r2, parseEval E info fields = some r1 →
    parseEval (negWrap E) info fields = some r2 →
    (∀ f ∈ fields, f ∈ r1 ∨ f ∈ r2) ∧ (∀ f, ¬(f ∈ r1 ∧ f ∈ r2))

/-- The stack-depth check `prepareExpr` effectively performs, as a pure
count over the postfix steps: a binary operator needs two operands on the
stack, `!` needs one, and every other token pushes one. -/
def sizeOk (n : Nat) : List String → Bool
  | [] => true
  | s :: rest =>
    if s = "|" || s = "&" then decide (2 ≤ n) && sizeOk (n - 1) rest
    else if s = "!" then decide (1 ≤ n) && sizeOk n rest
    else sizeOk (n + 1) rest

/-- `model.ts`: the part of `FieldDescriptor` the scope engine consumes —
the optional `scopes?: string[]` declaration (getters, setters and
validators play no role in scope evaluation). -/
structure FieldDescriptor where
  scopes : Option (List String)
deriving Repr, DecidableEq

/-- `scopeInfo(fields)` from `model.ts`: map every declared field name to
`descriptor.scopes || []` — its declared scope list, or the empty list
when none are declared.  The `Map` iterates all entries, so every declared
name becomes a key. -/
def scopeInfo (fields : List (String × FieldDescriptor)) : ScopeInfo :=
  fields.map (fun fd => (fd.1, fd.2.scopes.getD []))

/-- `Model.view(expr)` evaluates the parsed expression against
`scopeInfo(this._fields)` and `[...this.fields()]` — the declared field
names, in declaration order. -/
def fieldNames (fields : List (String × FieldDescriptor)) : List String :=
  fields.map Prod.fst

/-! ### Helper lemmas about deduplication -/

/-- Elements produced by `dedupGo` come from the input list. -/
theorem mem_dedupGo {y : String} :
    ∀ {l seen : List String}, y ∈ dedupGo seen l → y ∈ l := by
  intro l
  induction l with
  | nil => intro seen h; simp [dedupGo] at h
  | cons x xs ih =>
    intro seen h
    simp only [dedupGo] at h
    split at h
    · exact List.mem_cons_of_mem x (ih h)
    · rcases List.mem_cons.mp h with h1 | h2
      · simp [h1]
      · exact List.mem_cons_of_mem x (ih h2)

/-- `dedupGo` depends on the seen-set only through membership. -/
theorem dedupGo_congr :
    ∀ (l : List String) {s1 s2 : List String},
      (∀ y, y ∈ s1 ↔ y ∈ s2) → dedupGo s1 l = dedupGo s2 l := by
  intro l
  induction l with
  | nil => intro s1 s2 _; rfl
  | cons x xs ih =>
    intro s1 s2 h
    by_cases hx : x ∈ s1
    · simp only [dedupGo, if_pos hx, if_pos ((h x).mp hx)]
      exact ih h
    · simp only [dedupGo, if_neg hx, if_neg (fun hx2 => hx ((h x).mpr hx2))]
      congr 1
      exact ih (fun y => by simp [List.mem_cons, h y])

/-- Splitting `dedupGo` at an append: the second half is deduplicated with
the first half added to the seen-set. -/
theorem dedupGo_append :
    ∀ (a seen b : List String),
      dedupGo seen (a ++ b) = dedupGo seen a ++ dedupGo (a ++ seen) b := by
  intro a
  induction a with
  | nil => intro seen b; simp [dedupGo]
  | cons x a' ih =>
    intro seen b
    by_cases hx : x ∈ seen
    · simp only [List.cons_append, dedupGo, if_pos hx, List.append_eq]
      rw [ih]
      congr 1
      apply dedupGo_congr
      intro y
      simp only [List.cons_append, List.mem_cons, List.mem_append]
      constructor
      · exact fun h => Or.inr h
      · rintro (rfl | h)
        · exact Or.inr hx
        · exact h
    · simp only [List.cons_append, dedupGo, if_neg hx, List.append_eq]
      rw [ih]
      congr 2
      apply dedupGo_congr
      intro y
      simp only [List.mem_cons, List.mem_append]
      constructor
      · rintro (h | rfl | h)
        · exact Or.inr (Or.inl h)
        · exact Or.inl rfl
        · exact Or.inr (Or.inr h)
      · rintro (rfl | h | h)
        · exact Or.inr (Or.inl rfl)
        · exact Or.inl h
        · exact Or.inr (Or.inr h)

/-- Seeding the seen-set with `a` is the same as pre-filtering the
members of `a` out of the input. -/
theorem dedupGo_seed :
    ∀ (b a seen : List String),
      dedupGo (a ++ seen) b = dedupGo seen (b.filter (fun y => decide (y ∉ a))) := by
  intro b
  induction b with
  | nil => intro a seen; rfl
  | cons y b' ih =>
    intro a seen
    by_cases hya : y ∈ a
    · have hmem : y ∈ a ++ seen := List.mem_append_left _ hya
      have hfil : (y :: b').filter (fun z => decide (z ∉ a)) =
          b'.filter (fun z => decide (z ∉ a)) := by
        simp [List.filter_cons, hya]
      rw [hfil]
      simp only [dedupGo, if_pos hmem]
      exact ih a seen
    · by_cases hys : y ∈ seen
      · have hmem : y ∈ a ++ seen := List.mem_append_right _ hys
        have hfil : (y :: b').filter (fun z => decide (z ∉ a)) =
            y :: b'.filter (fun z => decide (z ∉ a)) := by
          simp [List.filter_cons, hya]
        rw [hfil]
        simp only [dedupGo, if_pos hmem, if_pos hys]
        exact ih a seen
      · have hmem : y ∉ a ++ seen := by
          simp only [List.mem_append]
          rintro (h | h)
          · exact hya h
          · exact hys h
        have hfil : (y :: b').filter (fun z => decide (z ∉ a)) =
            y :: b'.filter (fun z => decide (z ∉ a)) := by
          simp [List.filter_cons, hya]
        rw [hfil]
        simp only [dedupGo, if_neg hmem, if_neg hys]
        congr 1
        rw [← ih a (y :: seen)]
        apply dedupGo_congr
        intro z
        simp only [List.mem_cons, List.mem_append]
        constructor
        · rintro (rfl | h | h)
          · exact Or.inr (Or.inl rfl)
          · exact Or.inl h
          · exact Or.inr (Or.inr h)
        · rintro (h | rfl | h)
          · exact Or.inr (Or.inl h)
          · exact Or.inl rfl
          · exact Or.inr (Or.inr h)

/-- The JS-`Set` characterization of deduplicating a concatenation:
the part from `a` deduplicated first, then the novel part of `b`,
deduplicated, in the order of `b`. -/
theorem dedupFirst_append (a b : List String) :
    dedupFirst (a ++ b) =
      dedupFirst a ++ dedupFirst (b.filter (fun y => decide (y ∉ a))) := by
  unfold dedupFirst
  rw [dedupGo_append, dedupGo_seed b a []]

/-- Deduplicating a duplicate-free list (disjoint from the seen-set) is
the identity. -/
theorem dedupGo_of_nodup :
    ∀ (l seen : List String), l.Nodup → (∀ y ∈ l, y ∉ seen) → dedupGo seen l = l := by
  intro l
  induction l with
  | nil => intro seen _ _; rfl
  | cons x xs ih =>
    intro seen hnd hdisj
    rcases List.nodup_cons.mp hnd with ⟨hxnot, hnd'⟩
    have hx : x ∉ seen := hdisj x (List.mem_cons_self x xs)
    simp only [dedupGo, if_neg hx]
    congr 1
    apply ih (x :: seen) hnd'
    intro y hy
    simp only [List.mem_cons]
    rintro (rfl | h)
    · exact hxnot hy
    · exact hdisj y (List.mem_cons_of_mem x hy) h

/-- Deduplicating a duplicate-free list is the identity. -/
theorem dedupFirst_of_nodup (l : List String) (h : l.Nodup) : dedupFirst l = l :=
  dedupGo_of_nodup l [] h (by simp)

/-! ### Helper lemmas: narrowing and totality of evaluation -/

/-- A successful literal filter only returns members of its input. -/
theorem literalFilter_subset :
    ∀ (fields : List String) {scope : String} {info : ScopeInfo} {res : List String},
      literalFilter scope info fields = some res → ∀ f ∈ res, f ∈ fields := by
  intro fields
  induction fields with
  | nil =>
    intro scope info res h f hf
    simp only [literalFilter, Option.some.injEq] at h
    subst h
    simp at hf
  | cons g fs ih =>
    intro scope info res h f hf
    simp only [literalFilter] at h
    cases hl : List.lookup g info with
    | none => rw [hl] at h; exact absurd h (by simp)
    | some scopes =>
      rw [hl] at h
      cases hr : literalFilter scope info fs with
      | none => rw [hr] at h; exact absurd h (by simp)
      | some rest =>
        rw [hr] at h
        simp only [Option.some.injEq] at h
        subst h
        by_cases hc : scopes.contains scope = true
        · rw [if_pos hc] at hf
          rcases List.mem_cons.mp hf with h1 | h2
          · simp [h1]
          · exact List.mem_cons_of_mem g (ih hr f h2)
        · rw [if_neg hc] at hf
          exact List.mem_cons_of_mem g (ih hr f hf)

/-- Narrowing: a successful evaluation only returns members of the input
`fields` sequence. -/
theorem evalExpr_subset :
    ∀ (e : Expr) {info : ScopeInfo} {fields res : List String},
      evalExpr e info fields = some res → ∀ f ∈ res, f ∈ fields := by
  intro e
  induction e with
  | wildcard =>
    intro info fields res h f hf
    simp only [evalExpr, Option.some.injEq] at h
    exact h ▸ hf
  | literal s =>
    intro info fields res h f hf
    exact literalFilter_subset fields h f hf
  | negate sub ih =>
    intro info fields res h f hf
    simp only [evalExpr] at h
    cases hs : evalExpr sub info fields with
    | none => rw [hs] at h; exact absurd h (by simp)
    | some excluded =>
      rw [hs] at h
      simp only [Option.some.injEq] at h
      subst h
      exact (List.mem_filter.mp hf).1
  | join l r ihl ihr =>
    intro info fields res h f hf
    simp only [evalExpr] at h
    cases hl : evalExpr l info fields with
    | none => rw [hl] at h; exact absurd h (by simp)
    | some a =>
      cases hr : evalExpr r info fields with
      | none => rw [hl, hr] at h; exact absurd h (by simp)
      | some b =>
        rw [hl, hr] at h
        simp only [Option.some.injEq] at h
        subst h
        rcases List.mem_append.mp (mem_dedupGo hf) with h1 | h2
        · exact ihl hl f h1
        · exact ihr hr f h2
  | intersect l r ihl ihr =>
    intro info fields res h f hf
    simp only [evalExpr] at h
    cases hl : evalExpr l info fields with
    | none => rw [hl] at h; exact absurd h (by simp)
    | some a =>
      cases hr : evalExpr r info fields with
      | none => rw [hl, hr] at h; exact absurd h (by simp)
      | some b =>
        rw [hl, hr] at h
        simp only [Option.some.injEq] at h
        subst h
        exact ihl hl f (List.mem_filter.mp hf).1

/-- A literal filter succeeds whenever every input field is a key of the
`ScopeInfo`. -/
theorem literalFilter_isSome :
    ∀ (fields : List String) (scope : String) (info : ScopeInfo),
      (∀ f ∈ fields, (List.lookup f info).isSome) →
      (literalFilter scope info fields).isSome := by
  intro fields
  induction fields with
  | nil => intro scope info _; simp [literalFilter]
  | cons g fs ih =>
    intro scope info hcov
    have hg : (List.lookup g info).isSome := hcov g (List.mem_cons_self g fs)
    rcases Option.isSome_iff_exists.mp hg with ⟨scopes, hl⟩
    have hrec := ih scope info (fun f hf => hcov f (List.mem_cons_of_mem g hf))
    rcases Option.isSome_iff_exists.mp hrec with ⟨rest, hr⟩
    simp [literalFilter, hl, hr]

/-- Totality: evaluation succeeds whenever every input field is a key of
the `ScopeInfo`. -/
theorem evalExpr_isSome :
    ∀ (e : Expr) (info : ScopeInfo) (fields : List String),
      (∀ f ∈ fields, (List.lookup f info).isSome) →
      (evalExpr e info fields).isSome := by
  intro e
  induction e with
  | wildcard => intro info fields _; simp [evalExpr]
  | literal s => intro info fields hcov; exact literalFilter_isSome fields s info hcov
  | negate sub ih =>
    intro info fields hcov
    rcases Option.isSome_iff_exists.mp (ih info fields hcov) with ⟨ex, hs⟩
    simp [evalExpr, hs]
  | join l r ihl ihr =>
    intro info fields hcov
    rcases Option.isSome_iff_exists.mp (ihl info fields hcov) with ⟨a, hl⟩
    rcases Option.isSome_iff_exists.mp (ihr info fields hcov) with ⟨b, hr⟩
    simp [evalExpr, hl, hr]
  | intersect l r ihl ihr =>
    intro info fields hcov
    rcases Option.isSome_iff_exists.mp (ihl info fields hcov) with ⟨a, hl⟩
    rcases Option.isSome_iff_exists.mp (ihr info fields hcov) with ⟨b, hr⟩
    simp [evalExpr, hl, hr]

/-- `scopeInfo` declares every field name as a key. -/
theorem lookup_scopeInfo :
    ∀ (fds : List (String × FieldDescriptor)) (f : String),
      f ∈ fieldNames fds → (List.lookup f (scopeInfo fds)).isSome := by
  intro fds
  induction fds with
  | nil => intro f hf; simp [fieldNames] at hf
  | cons nd rest ih =>
    intro f hf
    simp only [scopeInfo, List.map_cons, List.lookup]
    by_cases he : f = nd.1
    · simp [he]
    · have : (f == nd.1) = false := beq_false_of_ne he
      rw [this]
      apply ih
      rcases List.mem_cons.mp hf with h1 | h2
      · exact absurd h1 he
      · exact h2

/-! ### Helper lemmas: the `ParseError` conditions of the compiler -/

/-- The compiler loop fails exactly when the operand-count check fails:
a binary operator with fewer than two operands on the stack, or a `!`
with an empty stack. -/
theorem prepGo_error_iff :
    ∀ (steps : List String) (stack : List Expr),
      prepGo stack steps = .error () ↔ sizeOk stack.length steps = false := by
  intro steps
  induction steps with
  | nil => intro stack; simp [prepGo, sizeOk]
  | cons s rest ih =>
    intro stack
    by_cases h1 : s = "|"
    · subst h1
      match stack with
      | [] => simp [prepGo, prepStep, sizeOk, Except.bind]
      | [x] => simp [prepGo, prepStep, sizeOk, Except.bind]
      | l :: r :: t =>
        have hps : prepStep (l :: r :: t) "|" = .ok (.join l r :: t) := by
          simp [prepStep]
        have h2 : (2 : Nat) ≤ t.length + 1 + 1 := by omega
        have hsz : sizeOk (l :: r :: t).length ("|" :: rest) =
            sizeOk (t.length + 1) rest := by
          simp [sizeOk, List.length_cons, decide_eq_true h2]
        simp only [prepGo, hps, Except.bind, hsz]
        simpa using ih (Expr.join l r :: t)
    · by_cases h2 : s = "&"
      · subst h2
        match stack with
        | [] => simp [prepGo, prepStep, sizeOk, Except.bind]
        | [x] => simp [prepGo, prepStep, sizeOk, Except.bind]
        | l :: r :: t =>
          have hps : prepStep (l :: r :: t) "&" = .ok (.intersect l r :: t) := by
            simp [prepStep]
          have hge : (2 : Nat) ≤ t.length + 1 + 1 := by omega
          have hsz : sizeOk (l :: r :: t).length ("&" :: rest) =
              sizeOk (t.length + 1) rest := by
            simp [sizeOk, List.length_cons, decide_eq_true hge]
          simp only [prepGo, hps, Except.bind, hsz]
          simpa using ih (Expr.intersect l r :: t)
      · by_cases h3 : s = "!"
        · subst h3
          match stack with
          | [] => simp [prepGo, prepStep, sizeOk, Except.bind]
          | e :: t =>
            have hps : prepStep (e :: t) "!" = .ok (.negate e :: t) := by
              simp [prepStep]
            have hsz : sizeOk (e :: t).length ("!" :: rest) =
                sizeOk (t.length + 1) rest := by
              simp [sizeOk, List.length_cons]
            simp only [prepGo, hps, Except.bind, hsz]
            simpa using ih (Expr.negate e :: t)
        · by_cases h4 : s = "*"
          · subst h4
            have hps : prepStep stack "*" = .ok (.wildcard :: stack) := by
              simp [prepStep]
            have hsz : sizeOk stack.length ("*" :: rest) =
                sizeOk (stack.length + 1) rest := by
              simp [sizeOk]
            simp only [prepGo, hps, Except.bind, hsz]
            simpa using ih (Expr.wildcard :: stack)
          · have hps : prepStep stack s = .ok (.literal s :: stack) := by
              simp [prepStep, h1, h2, h3, h4]
            have hsz : sizeOk stack.length (s :: rest) =
                sizeOk (stack.length + 1) rest := by
              simp [sizeOk, h1, h2, h3]
            simp only [prepGo, hps, Except.bind, hsz]
            simpa using ih (Expr.literal s :: stack)

/-- `prepareExpr` fails exactly when the operand-count check fails from an
empty stack. -/
theorem prepareExpr_error_iff (steps : List String) :
    prepareExpr steps = .error () ↔ sizeOk 0 steps = false := by
  have h := prepGo_error_iff steps []
  simp only [List.length_nil] at h
  unfold prepareExpr
  cases hp : prepGo [] steps with
  | error u =>
    cases u
    simp only [Except.map]
    rw [hp] at h
    simp only [true_iff] at h
    simp [h]
  | ok st =>
    simp only [Except.map, hp]
    constructor
    · intro hcon; exact absurd hcon (by simp)
    · intro hfalse
      rw [hp] at h
      exact absurd (h.mpr hfalse) (by simp)

/-! ### Claim theorems -/

/-- Claim C1, counterexample: evaluation is not total.  Evaluating the
compiled literal expression `s` against a `fields` sequence containing a
field (`x`) that is absent from the `ScopeInfo` mapping does not treat the
field as having no scopes (which would return `some []`): the evaluator
dereferences the missing key and throws (modeled as `none`). -/
theorem eval_literal_missing_key_throws :
    evalExpr (Expr.literal "s") ([] : ScopeInfo) ["x"] = none := by decide

/-- Claim C1, amended: for every compiled expression and every
`(ScopeInfo, fields)` pair in which every member of `fields` occurs as a
key of the mapping, evaluation returns normally; a member absent from the
mapping instead makes a literal membership test throw. -/
theorem eval_total_of_covered :
    ∀ (e : Expr) (info : ScopeInfo) (fields : List String),
      (∀ f ∈ fields, (List.lookup f info).isSome) →
      (evalExpr e info fields).isSome := by
  intro e info fields h
  exact evalExpr_isSome e info fields h

/-- Witness for the amended C1 at a concrete covered input. -/
theorem eval_total_of_covered_witness :
    (List.lookup "x" ([("x", ["s"])] : ScopeInfo)).isSome = true ∧
      (evalExpr (Expr.literal "s") [("x", ["s"])] ["x"]).isSome = true :=
  ⟨by decide, eval_total_of_covered (Expr.literal "s") [("x", ["s"])] ["x"] (by decide)⟩

/-- Claim C2, counterexample: `parse` applied to the empty string does not
raise a `ParseError`; it returns normally (with the `undefined` result of
popping an empty operand stack, modeled as `none`). -/
theorem parse_empty_not_parse_error : parse "" = Except.ok none := rfl

/-- Claim C2, amended: `parse` applied to the empty string produces an
empty token sequence, the resolver produces an empty postfix sequence, and
the downstream compiler returns no expression (`undefined`) without
raising, so the result is unusable but no `ParseError` occurs. -/
theorem parse_empty_returns_no_expr :
    tokenize "" = [] ∧ applyPrecedence (tokenize "") = .ok [] ∧
      prepareExpr [] = .ok none ∧ parse "" = Except.ok none :=
  ⟨rfl, rfl, rfl, rfl⟩

/-- Claim C3: `parse` raises `ParseError` exactly when an opening
parenthesis is left on the operator stack at the end of precedence
resolution, or the compiler meets a binary operator with fewer than two
operands or a `!` with an empty operand stack (the operand-count check
`sizeOk` over the produced postfix sequence).  In particular an unmatched
closing parenthesis (`"a)"`) and leftover operand residue (`"(a)(b)"`) do
not raise.  Evaluation can never produce this error: `evalExpr` returns in
`Option`, a type with no `ParseError`. -/
theorem parse_raises_iff :
    (∀ s : String,
        parse s = .error () ↔
          ("(" ∈ (precRun (tokenize s)).1 ∨
            sizeOk 0 ((precRun (tokenize s)).2 ++ (precRun (tokenize s)).1.reverse)
              = false)) ∧
      parse "a)" = .ok (some (.literal "a")) ∧
      parse "(a)(b)" = .ok (some (.literal "b")) := by
  refine ⟨?_, rfl, rfl⟩
  intro s
  cases hpr : precRun (tokenize s) with
  | mk ops out =>
    by_cases hp : "(" ∈ ops
    · have hap : applyPrecedence (tokenize s) = .error () := by
        simp [applyPrecedence, hpr, hp]
      have hps : parse s = .error () := by
        simp [parse, hap, Except.bind]
      rw [hps]
      simp [hp]
    · have hap : applyPrecedence (tokenize s) = .ok (out ++ ops.reverse) := by
        simp [applyPrecedence, hpr, hp]
      have hps : parse s = prepareExpr (out ++ ops.reverse) := by
        simp [parse, hap, Except.bind]
      rw [hps]
      simp only [hp, false_or]
      exact prepareExpr_error_iff (out ++ ops.reverse)

/-- Claim C4: when no `(` is left on the operator stack, the resolver
appends the remaining operators to the output in bottom-to-top array order
(the reverse of the head-is-top stack list), not in pop order; on
`a|b&c`, which leaves the two operators `&` (top) and `|` (bottom) on the
stack, the postfix output is `a b c | &`, which differs from the
`a b c & |` that repeated pop-and-append would give. -/
theorem trailing_operators_bottom_to_top :
    (∀ tokens : List String, "(" ∉ (precRun tokens).1 →
        applyPrecedence tokens =
          .ok ((precRun tokens).2 ++ (precRun tokens).1.reverse)) ∧
      applyPrecedence ["a", "|", "b", "&", "c"] = .ok ["a", "b", "c", "|", "&"] ∧
      (precRun ["a", "|", "b", "&", "c"]).1 = ["&", "|"] ∧
      (precRun ["a", "|", "b", "&", "c"]).2 ++ (precRun ["a", "|", "b", "&", "c"]).1 ≠
        ["a", "b", "c", "|", "&"] := by
  refine ⟨?_, rfl, rfl, by decide⟩
  intro tokens h
  cases hpr : precRun tokens with
  | mk ops out =>
    rw [hpr] at h
    simp only at h
    simp [applyPrecedence, hpr, h]

/-- Witness for C4 at the concrete token sequence `a|b&c`. -/
theorem trailing_operators_bottom_to_top_witness :
    ("(" ∉ (precRun ["a", "|", "b", "&", "c"]).1) ∧
      applyPrecedence ["a", "|", "b", "&", "c"] =
        .ok ((precRun ["a", "|", "b", "&", "c"]).2 ++
          (precRun ["a", "|", "b", "&", "c"]).1.reverse) :=
  ⟨by decide,
    trailing_operators_bottom_to_top.1 ["a", "|", "b", "&", "c"] (by decide)⟩

/-- Claim C5: a Union node evaluates to the deduplicated concatenation of
the left result followed by the right result — every field already present
in the left result is dropped from the right contribution, and the order
is the left result (its duplicates, if any, also collapsed by the JS Set)
followed by the novel members of the right result in right-result order;
when the left result is duplicate-free it is passed through unchanged. -/
theorem union_dedup_concat :
    ∀ (a b : Expr) (info : ScopeInfo) (fields ra rb : List String),
      evalExpr a info fields = some ra → evalExpr b info fields = some rb →
      evalExpr (.join a b) info fields =
          some (dedupFirst ra ++
            dedupFirst (rb.filter (fun y => decide (y ∉ ra)))) ∧
        (ra.Nodup → evalExpr (.join a b) info fields =
          some (ra ++ dedupFirst (rb.filter (fun y => decide (y ∉ ra))))) := by
  intro a b info fields ra rb ha hb
  have hj : evalExpr (.join a b) info fields = some (dedupFirst (ra ++ rb)) := by
    simp [evalExpr, ha, hb]
  constructor
  · rw [hj, dedupFirst_append]
  · intro hnd
    rw [hj, dedupFirst_append, dedupFirst_of_nodup ra hnd]

/-- Witness for C5 at a concrete Union whose children both evaluate. -/
theorem union_dedup_concat_witness :
    evalExpr (Expr.literal "s") [("x", ["s"]), ("y", [])] ["x", "y"] = some ["x"] ∧
      evalExpr (Expr.join (Expr.literal "s") Expr.wildcard)
          [("x", ["s"]), ("y", [])] ["x", "y"] =
        some (dedupFirst ["x"] ++
          dedupFirst ((["x", "y"] : List String).filter
            (fun y => decide (y ∉ (["x"] : List String))))) :=
  ⟨by decide,
    (union_dedup_concat (Expr.literal "s") Expr.wildcard [("x", ["s"]), ("y", [])]
      ["x", "y"] ["x"] ["x", "y"] (by decide) (by decide)).1⟩

/-- Claim C6: a Negate node evaluates to the input `fields` minus the
child result, in the original order of `fields` (the result is a sublist
of `fields`); the child is evaluated against the exact same `fields`
argument the Negate node received, so the complement is always relative to
the full sequence passed to that call. -/
theorem negate_same_fields_minus :
    ∀ (sub : Expr) (info : ScopeInfo) (fields ra : List String),
      evalExpr sub info fields = some ra →
      evalExpr (.negate sub) info fields =
          some (fields.filter (fun f => !ra.contains f)) ∧
        (∀ f, f ∈ fields.filter (fun f => !ra.contains f) ↔ f ∈ fields ∧ f ∉ ra) ∧
        (fields.filter (fun f => !ra.contains f)).Sublist fields := by
  intro sub info fields ra h
  refine ⟨by simp [evalExpr, h], ?_, List.filter_sublist fields⟩
  intro f
  simp [List.mem_filter, List.contains]

/-- Witness for C6 at a concrete Negate whose child evaluates. -/
theorem negate_same_fields_minus_witness :
    evalExpr (Expr.literal "s") [("x", ["s"]), ("y", [])] ["x", "y"] = some ["x"] ∧
      evalExpr (Expr.negate (Expr.literal "s")) [("x", ["s"]), ("y", [])]
          ["x", "y"] =
        some ((["x", "y"] : List String).filter
          (fun f => !(["x"] : List String).contains f)) :=
  ⟨by decide,
    (negate_same_fields_minus (Expr.literal "s") [("x", ["s"]), ("y", [])]
      ["x", "y"] ["x"] (by decide)).1⟩

/-- Claim C7, counterexample: the complement law fails for the well-formed
expression `a|b&c`.  Because the trailing operators are flushed
bottom-to-top (C4), `parse "a|b&c"` compiles to
`Intersect(Union(c, b), a)` while `parse "!(a|b&c)"` compiles to
`Negate(Union(Intersect(c, b), a))` — a different tree.  With
`info = {x: [a]}` and `fields = [x]` both evaluate to `[]`, so their union
misses `x` and is not the full `fields` set. -/
theorem complement_law_fails_syntactically :
    ¬ complementLaw "a|b&c" [("x", ["a"])] ["x"] := by
  intro h
  have h2 := h [] [] (by decide) (by decide)
  have h3 := h2.1 "x" (by simp)
  simp at h3

/-- Claim C7, amended: the complement law holds at the level of compiled
expressions — for every compiled expression and every `(info, fields)` on
which it evaluates, the result of the Negate node applied to that same
compiled expression together with the original result covers exactly the
members of `fields`, and the two results share no member. -/
theorem negate_node_complement :
    ∀ (e : Expr) (info : ScopeInfo) (fields ra rn : List String),
      evalExpr e info fields = some ra →
      evalExpr (.negate e) info fields = some rn →
      (∀ f, f ∈ fields ↔ f ∈ ra ∨ f ∈ rn) ∧ (∀ f, ¬(f ∈ ra ∧ f ∈ rn)) := by
  intro e info fields ra rn ha hn
  have hrn : rn = fields.filter (fun f => !ra.contains f) := by
    simp only [evalExpr, ha] at hn
    exact (Option.some.injEq _ _ ▸ hn).symm
  subst hrn
  constructor
  · intro f
    constructor
    · intro hf
      by_cases hra : f ∈ ra
      · exact Or.inl hra
      · refine Or.inr ?_
        simp [List.mem_filter, List.contains, hf, hra]
    · rintro (hra | hrn2)
      · exact evalExpr_subset e ha f hra
      · exact (List.mem_filter.mp hrn2).1
  · rintro f ⟨hra, hrn2⟩
    have hnot := (List.mem_filter.mp hrn2).2
    simp [List.contains] at hnot
    exact hnot hra

/-- Witness for the amended C7, instantiated at a concrete expression and
specialized to the field `x`. -/
theorem negate_node_complement_witness :
    ("x" ∈ (["x", "y"] : List String) ↔
        "x" ∈ (["x"] : List String) ∨ "x" ∈ (["y"] : List String)) ∧
      ¬("x" ∈ (["x"] : List String) ∧ "x" ∈ (["y"] : List String)) := by
  have h := negate_node_complement (Expr.literal "s") [("x", ["s"]), ("y", [])]
    ["x", "y"] ["x"] ["y"] (by decide) (by decide)
  exact ⟨h.1 "x", h.2 "x"⟩

/-- Claim C8: narrowing invariant — every member of a successful
evaluation result is a member of the input `fields` sequence; no evaluator
node ever returns a field absent from the `fields` it was passed. -/
theorem eval_narrowing :
    ∀ (e : Expr) (info : ScopeInfo) (fields res : List String),
      evalExpr e info fields = some res → ∀ f ∈ res, f ∈ fields := by
  intro e info fields res h
  exact evalExpr_subset e h

/-- Witness for C8 at a concrete evaluation. -/
theorem eval_narrowing_witness :
    evalExpr (Expr.negate (Expr.literal "s")) [("x", ["s"]), ("y", [])]
        ["x", "y"] = some ["y"] ∧
      "y" ∈ (["x", "y"] : List String) :=
  ⟨by decide,
    eval_narrowing (Expr.negate (Expr.literal "s")) [("x", ["s"]), ("y", [])]
      ["x", "y"] ["y"] (by decide) "y" (by decide)⟩

/-- Claim C9: with the documented `ScopeInfo` (id has no scopes, name is
public, email is private, ssn is private and sensitive) and
`fields = [id, name, email, ssn]`, evaluating `parse "*&!sensitive"`
returns exactly `[id, name, email]` in that order. -/
theorem wildcard_and_not_sensitive_example :
    parseEval "*&!sensitive"
        [("id", []), ("name", ["public"]), ("email", ["private"]),
          ("ssn", ["private", "sensitive"])]
        ["id", "name", "email", "ssn"] =
      some ["id", "name", "email"] := by decide

/-- Claim C10: if every member of the input `fields` occurs as a key of
the `ScopeInfo` mapping then evaluation never throws; and the model
layer always establishes this precondition, because `scopeInfo` maps every
declared field name to a list (its declared scopes or `[]`) and
`Model.view` evaluates over exactly the declared field names. -/
theorem scopeInfo_covers_eval_total :
    (∀ (e : Expr) (info : ScopeInfo) (fields : List String),
        (∀ f ∈ fields, (List.lookup f info).isSome) →
        (evalExpr e info fields).isSome) ∧
      ∀ (e : Expr) (fds : List (String × FieldDescriptor)),
        (∀ f ∈ fieldNames fds, (List.lookup f (scopeInfo fds)).isSome) ∧
          (evalExpr e (scopeInfo fds) (fieldNames fds)).isSome := by
  refine ⟨fun e info fields h => evalExpr_isSome e info fields h, ?_⟩
  intro e fds
  exact ⟨fun f hf => lookup_scopeInfo fds f hf,
    evalExpr_isSome e _ _ (fun f hf => lookup_scopeInfo fds f hf)⟩

/-- Witness for C10 at a concrete expression and field-descriptor list. -/
theorem scopeInfo_covers_eval_total_witness :
    (evalExpr Expr.wildcard [("x", ["s"])] ["x"]).isSome = true ∧
      (evalExpr (Expr.literal "s")
          (scopeInfo [("x", FieldDescriptor.mk (some ["s"])),
            ("y", FieldDescriptor.mk none)])
          (fieldNames [("x", FieldDescriptor.mk (some ["s"])),
            ("y", FieldDescriptor.mk none)])).isSome = true :=
  ⟨scopeInfo_covers_eval_total.1 Expr.wildcard [("x", ["s"])] ["x"] (by decide),
    (scopeInfo_covers_eval_total.2 (Expr.literal "s")
      [("x", FieldDescriptor.mk (some ["s"])), ("y", FieldDescriptor.mk none)]).2⟩

end Apioid
